import Mathlib

/-!
Shallow embedding of markdown.c (libsoldout reduced core): the two-pass
block parser.  Bytes are modelled as `List Char`; every C loop is either a
structural list recursion or a fuel-indexed recursion whose fuel is the
input length (each loop iteration consumes at least one byte, so that fuel
is sufficient); all definitions are executable.
-/

/-- Convert a string literal to the byte-list model. -/
def toL (s : String) : List Char := s.data

/-- Read `data[i]`; the C code only reads in bounds, the default is never hit
on those paths. -/
def byteAt (d : List Char) (i : Nat) : Char := d.getD i (Char.ofNat 0)

/-- The apostrophe character (39). -/
def apo : Char := Char.ofNat 39

/-- The double-quote character (34). -/
def quo : Char := Char.ofNat 34

/-- Space-or-tab test used by the scanner loops. -/
def isSpTabB (c : Char) : Bool := c == ' ' || c == '\t'

/-- Advance an index while the predicate holds, staying inside the buffer:
the translation of C loops `while (i < end && p(data[i])) i += 1;`. -/
def cw (p : Char → Bool) (d : List Char) (i : Nat) : Nat :=
  i + ((d.drop i).takeWhile p).length

/-- Length of the first line including its newline, if any: the translation
of `for (end = beg + 1; end < size && data[end - 1] != '\n'; end += 1);`
(for a nonempty region). -/
def lineLen : List Char → Nat
  | [] => 0
  | c :: rest => if c = '\n' then 1 else 1 + lineLen rest

/-- is_empty from markdown.c: the line holds only spaces and tabs before its
newline (or end of buffer). -/
def is_empty : List Char → Bool
  | [] => true
  | c :: rest => if c = '\n' then true else if isSpTabB c then is_empty rest else false

/-- prefix_quote from markdown.c: up to three leading spaces, then a `>`,
then optionally one space or tab; returns the prefix length, 0 if none. -/
def prefix_quote (l : List Char) : Nat :=
  let i1 := if 0 < l.length ∧ byteAt l 0 = ' ' then 1 else 0
  let i2 := if i1 < l.length ∧ byteAt l i1 = ' ' then i1 + 1 else i1
  let i3 := if i2 < l.length ∧ byteAt l i2 = ' ' then i2 + 1 else i2
  if i3 < l.length ∧ byteAt l i3 = '>' then
    if i3 + 1 < l.length ∧ (byteAt l (i3 + 1) = ' ' ∨ byteAt l (i3 + 1) = '\t') then i3 + 2
    else i3 + 1
  else 0

/-- A link reference record: id, link, optional title (struct link_ref). -/
structure LinkRef where
  id : List Char
  link : List Char
  title : Option (List Char)

deriving instance DecidableEq for LinkRef

/-- Slice `data[a..b)` as captured by `bufput(buf, data + a, b - a)`. -/
def sliceBuf (d : List Char) (a b : Nat) : List Char := (d.drop a).take (b - a)

/-- The backwards walk in the title part of is_ref:
`while (i > title_offset && (data[i] == ' ' || data[i] == '\t')) i -= 1;`. -/
def stepBack (d : List Char) (off : Nat) : Nat → Nat
  | 0 => 0
  | i + 1 =>
    if off < i + 1 ∧ (byteAt d (i + 1) = ' ' ∨ byteAt d (i + 1) = '\t') then stepBack d off i
    else i + 1

/-- is_ref from markdown.c, with `end` fixed to `d.length` as in the only
call site; returns the consumed-to offset (`*last`) and the record on
success.  Every index step mirrors one statement of the C function. -/
def is_ref (d : List Char) (beg : Nat) : Option (Nat × LinkRef) :=
  let n := d.length
  -- up to 3 optional leading spaces
  let m := min ((d.drop beg).takeWhile (fun c => c == ' ')).length 3
  let i0 := beg + m
  if i0 ≥ n ∨ i0 ≥ beg + 3 then none
  else if byteAt d i0 ≠ '[' then none
  else
    -- id part: anything but a newline between brackets
    let idOff := i0 + 1
    let i1 := cw (fun c => c != '\n' && c != '\r' && c != ']') d idOff
    if i1 ≥ n ∨ byteAt d i1 ≠ ']' then none
    else
      let idEnd := i1
      -- spacer: colon (space | tab)* newline? (space | tab)*
      let i2 := i1 + 1
      if i2 ≥ n ∨ byteAt d i2 ≠ ':' then none
      else
        let i3 := cw isSpTabB d (i2 + 1)
        let i4 :=
          if i3 < n ∧ (byteAt d i3 = '\n' ∨ byteAt d i3 = '\r') then
            let j := i3 + 1
            if j < n ∧ byteAt d j = '\r' ∧ byteAt d (j - 1) = '\n' then j + 1 else j
          else i3
        let i5 := cw isSpTabB d i4
        if i5 ≥ n then none
        else
          -- link: whitespace-free sequence, optionally between angle brackets
          let i6 := if byteAt d i5 = '<' then i5 + 1 else i5
          let linkOff := i6
          let i7 := cw (fun c => c != ' ' && c != '\t' && c != '\n' && c != '\r') d i6
          let linkEnd := if byteAt d (i7 - 1) = '>' then i7 - 1 else i7
          -- optional spacer then newline or title delimiter
          let i8 := cw isSpTabB d i7
          if i8 < n ∧ byteAt d i8 ≠ '\n' ∧ byteAt d i8 ≠ '\r' ∧ byteAt d i8 ≠ apo
              ∧ byteAt d i8 ≠ quo ∧ byteAt d i8 ≠ '(' then none
          else
            -- computing end-of-line (0 is the not-found sentinel, as in C)
            let le0 : Nat := if i8 ≥ n ∨ byteAt d i8 = '\r' ∨ byteAt d i8 = '\n' then i8 else 0
            let le1 : Nat :=
              if i8 + 1 < n ∧ byteAt d i8 = '\n' ∧ byteAt d (i8 + 1) = '\r' then i8 + 1 else le0
            let i9 := if le1 ≠ 0 then cw isSpTabB d (le1 + 1) else i8
            -- optional title; tp = (line_end, title_offset, title_end)
            let tp : Nat × Nat × Nat :=
              if i9 + 1 < n ∧ (byteAt d i9 = apo ∨ byteAt d i9 = quo ∨ byteAt d i9 = '(') then
                let tOff := i9 + 1
                let i10 := cw (fun c => c != '\n' && c != '\r') d tOff
                let tEnd0 :=
                  if i10 + 1 < n ∧ byteAt d i10 = '\n' ∧ byteAt d (i10 + 1) = '\r' then i10 + 1
                  else i10
                let i11 := stepBack d tOff (i10 - 1)
                if tOff < i11 ∧ (byteAt d i11 = apo ∨ byteAt d i11 = quo ∨ byteAt d i11 = ')') then
                  (tEnd0, tOff, i11)
                else (le1, tOff, tEnd0)
              else (le1, 0, 0)
            if tp.1 = 0 then none
            else
              some (tp.1,
                { id := sliceBuf d idOff idEnd,
                  link := sliceBuf d linkOff linkEnd,
                  title := if tp.2.1 < tp.2.2 then some (sliceBuf d tp.2.1 tp.2.2) else none })

/-- The inner newline-run loop of the first pass of markdown():
`while (end < size && (data[end]=='\n' || data[end]=='\r')) { if (...) bufputc(text,'\n'); end += 1; }`.
Returns the emitted bytes and the number of input bytes consumed. -/
def nlLoop : List Char → List Char × Nat
  | [] => ([], 0)
  | c :: rest =>
    if c = '\n' ∨ c = '\r' then
      -- add one \n per newline
      let keep : Bool := c == '\n' || (match rest with | r :: _ => r != '\n' | [] => false)
      let e : List Char := if keep then ['\n'] else []
      let r0 := nlLoop rest
      (e ++ r0.1, r0.2 + 1)
    else ([], 0)

/-- The first pass of markdown(): iterate over lines; a recognized reference
is harvested into the table, any other line body is copied followed by the
normalized newline run.  Fuel: each iteration consumes at least one byte. -/
def prePassGo (ib : List Char) : Nat → Nat → List Char → List LinkRef → List Char × List LinkRef
  | 0, _, text, refs => (text, refs)
  | fuel + 1, beg, text, refs =>
    if beg < ib.length then
      match is_ref ib beg with
      | some pr => prePassGo ib fuel pr.1 text (refs ++ [pr.2])
      | none =>
        -- skipping to the next line, adding the line body if present
        let rest := ib.drop beg
        let body := rest.takeWhile (fun c => c != '\n' && c != '\r')
        let nl := nlLoop (rest.drop body.length)
        prePassGo ib fuel (beg + body.length + nl.2) (text ++ body ++ nl.1) refs
    else (text, refs)

/-- Cleaned text accumulated by the first pass (before the final-newline fixup). -/
def preText (ib : List Char) : List Char := (prePassGo ib (ib.length + 1) 0 [] []).1

/-- The reference table harvested by the first pass, in document order. -/
def refsOf (ib : List Char) : List LinkRef := (prePassGo ib (ib.length + 1) 0 [] []).2

/-- Cleaned text after markdown() appends a final newline when the last byte
is neither LF nor CR (only reached when the text is nonempty). -/
def cleanText (ib : List Char) : List Char :=
  let t := preText ib
  if t.length = 0 then t
  else if byteAt t (t.length - 1) ≠ '\n' ∧ byteAt t (t.length - 1) ≠ '\r' then t ++ ['\n']
  else t

/-- Renderer descriptor: each callback takes the output buffer and the inner
text and returns the new output buffer (struct mkd_renderer). -/
structure mkd_renderer where
  paragraph : List Char → List Char → List Char
  blockquote : List Char → List Char → List Char

/-- xhtml_paragraph from markdown.c. -/
def xhtml_paragraph (ob text : List Char) : List Char :=
  (if ob.length ≠ 0 then ob ++ ['\n'] else ob) ++ toL "<p>" ++ text ++ toL "</p>\n"

/-- xhtml_blockquote from markdown.c. -/
def xhtml_blockquote (ob text : List Char) : List Char :=
  (if ob.length ≠ 0 then ob ++ ['\n'] else ob) ++ toL "<blockquote>\n" ++ text ++ toL "</blockquote>\n"

/-- The exported XHTML renderer mkd_xhtml. -/
def mkd_xhtml : mkd_renderer := ⟨xhtml_paragraph, xhtml_blockquote⟩

/-- The line loop of parse_blockquote: returns the consumed byte count (the
C variable `end` at exit) and the packed prefix-stripped inner content (the
bytes `work_data[0..work_size)` built by the in-place compaction).  One
iteration per line; `pre = 0` in the lazy-continuation branch so the
`line.drop pre` copy covers both copy sites of the C loop. -/
def quoteScanGo : Nat → List Char → Nat → List Char → Nat × List Char
  | 0, _, consumed, acc => (consumed, acc)
  | fuel + 1, rest, consumed, acc =>
    if rest.length = 0 then (consumed, acc)
    else
      let n := lineLen rest
      let line := rest.take n
      let pre := prefix_quote line
      if pre = 0 ∧ (is_empty line
          ∧ ((rest.drop n).length = 0 ∨ prefix_quote (rest.drop n) = 0)) then
        -- empty line followed by non-quote line: break
        (consumed + n, acc)
      else quoteScanGo fuel (rest.drop n) (consumed + n) (acc ++ line.drop pre)

/-- Consumed count and packed inner content of parse_blockquote on a region. -/
def quoteScan (data : List Char) : Nat × List Char := quoteScanGo data.length data 0 []

/-- The scan loop of parse_paragraph: returns the C variable `end` at loop
exit (the end of the first empty line, or the region size). -/
def paragraphGo : Nat → List Char → Nat → Nat
  | 0, _, i => i
  | fuel + 1, rest, i =>
    if rest.length = 0 then i
    else
      let n := lineLen rest
      if is_empty rest then i + n
      else paragraphGo fuel (rest.drop n) (i + n)

/-- Consumed count returned by parse_paragraph on a region. -/
def paragraphEnd (data : List Char) : Nat := paragraphGo data.length data 0

/-- Trailing-newline trimming `while (work.size && data[work.size-1]=='\n') work.size -= 1;`. -/
def trimNl (l : List Char) : List Char := (l.reverse.dropWhile (fun c => c == '\n')).reverse

/-- The view handed to renderer.paragraph by parse_paragraph: the region up
to the scan end, with trailing LFs trimmed. -/
def paragraphView (data : List Char) : List Char := trimNl (data.take (paragraphEnd data))

/-- parse_block from markdown.c with parse_blockquote and parse_paragraph
inlined at their call sites; `fuel` bounds the recursion depth and
`data.length + 1` is always sufficient (each sub-parser consumes at least
one byte and the blockquote inner content is strictly shorter than its
region). -/
def parse_block (rndr : mkd_renderer) : Nat → List Char → List Char → List Char
  | 0, _, ob => ob
  | fuel + 1, data, ob =>
    if data.length = 0 then ob
    else if 0 < prefix_quote data then
      -- parse_blockquote: recurse on the packed inner content, then render
      let q := quoteScan data
      let inner := parse_block rndr fuel q.2 []
      parse_block rndr fuel (data.drop q.1) (rndr.blockquote ob inner)
    else
      -- parse_paragraph
      parse_block rndr fuel (data.drop (paragraphEnd data)) (rndr.paragraph ob (paragraphView data))

/-- One record of the debug reference dump at the end of markdown(). -/
def refDumpOne (ob : List Char) (lr : LinkRef) : List Char :=
  ob ++ toL "\n\t(\"" ++ lr.id ++ toL "\" \"" ++ lr.link
     ++ (match lr.title with | some t => toL "\" \"" ++ t | none => []) ++ toL "\")"

/-- The debug reference-list dump appended to the output by markdown(). -/
def refDump (ob : List Char) (refs : List LinkRef) : List Char :=
  (refs.foldl refDumpOne (ob ++ toL "(refs")) ++ toL ")\n"

/-- markdown() from markdown.c: first pass, early return on empty text,
final-newline fixup, block parsing, debug reference dump. -/
def markdown (ob ib : List Char) (rndr : mkd_renderer) : List Char :=
  if (preText ib).length = 0 then ob
  else refDump (parse_block rndr ((cleanText ib).length + 1) (cleanText ib) ob) (refsOf ib)

/-- markdown() with the debug reference dump disabled (the spec's scenarios
elide that stanza). -/
def markdown_nodebug (ob ib : List Char) (rndr : mkd_renderer) : List Char :=
  if (preText ib).length = 0 then ob
  else parse_block rndr ((cleanText ib).length + 1) (cleanText ib) ob

/-- The sequence of consumed counts of the successive sub-parser invocations
of the parse_block dispatch loop. -/
def blockCountsGo : Nat → List Char → List Nat
  | 0, _ => []
  | fuel + 1, data =>
    if data.length = 0 then []
    else
      let n := if 0 < prefix_quote data then (quoteScan data).1 else paragraphEnd data
      n :: blockCountsGo fuel (data.drop n)

/-- Consumed counts of parse_block on a region (fuel `data.length` already
exhausts the region, which is the termination statement). -/
def blockCounts (data : List Char) : List Nat := blockCountsGo data.length data

/-- The in-place compaction writes of parse_blockquote as (destination
offset, length) pairs relative to the region start: a pair is recorded
exactly when the C loop executes its memmove, i.e. when the line body is
not already contiguous with the packed content.  `workOff` is
`work_data - data` (none while work_data is still null) and `workSize` is
`work_size`. -/
def quoteEventsGo (data : List Char) : Nat → Nat → Option Nat → Nat → List (Nat × Nat)
  | 0, _, _, _ => []
  | fuel + 1, beg, workOff, workSize =>
    if beg < data.length then
      let rest := data.drop beg
      let n := lineLen rest
      let line := rest.take n
      let pre := prefix_quote line
      if pre = 0 ∧ (is_empty line
          ∧ ((data.drop (beg + n)).length = 0 ∨ prefix_quote (data.drop (beg + n)) = 0)) then []
      else
        let beg2 := beg + pre
        let len := beg + n - beg2
        if 0 < len then
          match workOff with
          | none => quoteEventsGo data fuel (beg + n) (some beg2) len
          | some w =>
            if beg2 = w + workSize then quoteEventsGo data fuel (beg + n) (some w) (workSize + len)
            else (w + workSize, len) :: quoteEventsGo data fuel (beg + n) (some w) (workSize + len)
        else quoteEventsGo data fuel (beg + n) workOff workSize
    else []

/-- All compaction writes performed by parse_blockquote on a region. -/
def quoteEvents (data : List Char) : List (Nat × Nat) := quoteEventsGo data data.length 0 none 0

/-- Lines decomposition of a region for the spec-level paragraph contract:
each element is one line including its newline, if any. -/
def toLinesGo : Nat → List Char → List (List Char)
  | 0, _ => []
  | fuel + 1, l =>
    if l.length = 0 then []
    else l.take (lineLen l) :: toLinesGo fuel (l.drop (lineLen l))

/-- Lines of a region. -/
def toLines (l : List Char) : List (List Char) := toLinesGo l.length l

/-- Spec-level blank line: only spaces and tabs before its newline. -/
def lineBlank (line : List Char) : Bool :=
  (line.takeWhile (fun c => c != '\n')).all (fun c => c == ' ' || c == '\t')

/-- Lines strictly before the first blank line (the view claimed by the spec). -/
def beforeBlank : List (List Char) → List (List Char)
  | [] => []
  | l :: ls => if lineBlank l then [] else l :: beforeBlank ls

/-- Lines up to and including the first blank line (what the code consumes). -/
def upThroughBlank : List (List Char) → List (List Char)
  | [] => []
  | l :: ls => if lineBlank l then [l] else l :: upThroughBlank ls

/-- The paragraph view as the spec sentence of C4 describes it: bytes up to
but not including the first empty line, trailing LFs trimmed. -/
def specC4View (data : List Char) : List Char :=
  trimNl (List.flatten (beforeBlank (toLines data)))

/-- LF-or-CR test for the newline-run normalization. -/
def isNlByte (c : Char) : Bool := c == '\n' || c == '\r'

/-- Number of LFs in the leading newline run. -/
def runLFs (l : List Char) : Nat := ((l.takeWhile isNlByte).filter (fun c => c == '\n')).length

/-- Number of CRs in the leading newline run that are immediately followed
by a further input byte other than LF. -/
def runCRsKept (l : List Char) : Nat :=
  (((l.zip l.tail).take ((l.takeWhile isNlByte).length)).filter
    (fun p => p.1 == '\r' && p.2 != '\n')).length

/-- A nonempty region's first line has at least one byte. -/
theorem lineLen_pos (l : List Char) (h : l ≠ []) : 1 ≤ lineLen l := by
  cases l with
  | nil => exact absurd rfl h
  | cons c rest => rw [lineLen]; split <;> omega

/-- The first line does not extend past the region. -/
theorem lineLen_le (l : List Char) : lineLen l ≤ l.length := by
  induction l with
  | nil => simp [lineLen]
  | cons c rest ih =>
    rw [lineLen]
    split
    · simp
    · simp only [List.length_cons]; omega

/-- C1: the spec's nested-blockquote scenario 4 does not match the code: the
inner quoted line is not recognized as a nested blockquote, because
parse_paragraph only stops at empty lines; the claimed output differs from
the rendered one. -/
theorem c1_counterexample :
    markdown_nodebug [] (toL "> outer\n> > inner\n> outer again\n") mkd_xhtml
      ≠ toL "<blockquote>\n<p>outer</p>\n\n<blockquote>\n<p>inner</p>\n</blockquote>\n\n<p>outer again</p>\n</blockquote>\n" := by
  decide

/-- C1 amended: the whole quoted content becomes a single paragraph inside
one blockquote, the inner `> ` marker surviving as paragraph text, because
parse_paragraph breaks only at empty lines. -/
theorem c1_amended :
    markdown_nodebug [] (toL "> outer\n> > inner\n> outer again\n") mkd_xhtml
      = toL "<blockquote>\n<p>outer\n> inner\nouter again</p>\n</blockquote>\n" := by
  decide

/-- C2: the reference definition is not fully excised: is_ref reports the
offset of the terminating newline rather than past it, so that newline and
the following blank line survive into the cleaned text and render as two
empty paragraphs before the body. -/
theorem c2_counterexample :
    markdown_nodebug [] (toL "[ref]: http://example.com \"title\"\n\nBody.\n") mkd_xhtml
      ≠ toL "<p>Body.</p>\n" := by
  decide

/-- C2 amended: the rendered output (debug stanza disabled) carries two empty
paragraphs from the reference line's newline and the following blank line,
then the body paragraph; the reference table holds exactly the one record
with id `ref`, link `http://example.com`, title `title`. -/
theorem c2_amended :
    markdown_nodebug [] (toL "[ref]: http://example.com \"title\"\n\nBody.\n") mkd_xhtml
      = toL "<p></p>\n\n<p></p>\n\n<p>Body.</p>\n"
    ∧ refsOf (toL "[ref]: http://example.com \"title\"\n\nBody.\n")
      = [⟨toL "ref", toL "http://example.com", some (toL "title")⟩] := by
  constructor <;> decide

/-- C3: the pre-pass does not drop a lone CR silently and does not collapse
LF-LF pairs: input `a\rb` cleans to `a\nb\n` (the lone CR between two
non-newline bytes emits one LF), not to `ab\n` as the claim implies, and
`a\n\nb` keeps both LFs. -/
theorem c3_counterexample :
    cleanText (toL "a\rb") = toL "a\nb\n" ∧ toL "a\nb\n" ≠ toL "ab\n"
    ∧ cleanText (toL "a\n\nb") = toL "a\n\nb\n" ∧ toL "a\n\nb\n" ≠ toL "a\nb\n" := by
  refine ⟨by decide, by decide, by decide, by decide⟩

/-- C4: the view passed to renderer.paragraph is not cut before the first
empty line: the scan end already includes the empty line, and trimming only
removes trailing LFs, so the empty line's spaces survive in the view. -/
theorem c4_counterexample :
    paragraphView (toL "a\n \nb\n") = toL "a\n "
    ∧ specC4View (toL "a\n \nb\n") = toL "a"
    ∧ paragraphView (toL "a\n \nb\n") ≠ specC4View (toL "a\n \nb\n") := by
  refine ⟨by decide, by decide, by decide⟩

/-- C6: a single blank line does not render to empty output: the cleaned
text is the lone LF, parse_paragraph consumes it and invokes the paragraph
callback on an empty view, so the XHTML renderer emits one empty element. -/
theorem c6_counterexample :
    markdown_nodebug [] (toL "\n") mkd_xhtml ≠ [] := by
  decide

/-- C6 amended: for the input of a single LF the rendered output is exactly
one empty paragraph element. -/
theorem c6_amended :
    markdown_nodebug [] (toL "\n") mkd_xhtml = toL "<p></p>\n" := by
  decide

/-- C5: is_ref rejects every region whose first three bytes after `beg` are
spaces, because the guard `i >= beg + 3` fires after the space loop already
advanced over three spaces; the code's own comment (and the spec) say up to
three leading spaces are accepted.  A definition with two leading spaces is
accepted. -/
theorem c5_three_spaces_rejected :
    (∀ (d t : List Char) (beg : Nat), d.drop beg = ' ' :: ' ' :: ' ' :: t → is_ref d beg = none)
    ∧ is_ref (toL "  [r]: u\n") 0 = some (8, ⟨toL "r", toL "u", none⟩) := by
  constructor
  · intro d t beg h
    have h3 : 3 ≤ ((d.drop beg).takeWhile (fun c => c == ' ')).length := by
      rw [h]
      simp [List.takeWhile]
    have hm : min ((d.drop beg).takeWhile (fun c => c == ' ')).length 3 = 3 := by omega
    simp [is_ref, hm]
  · decide

/-- C5 witness: the concrete three-space input is rejected. -/
theorem c5_witness :
    (toL "   [r]: u\n").drop 0 = ' ' :: ' ' :: ' ' :: toL "[r]: u\n"
    ∧ is_ref (toL "   [r]: u\n") 0 = none := by
  exact ⟨by decide, c5_three_spaces_rejected.1 _ (toL "[r]: u\n") 0 (by decide)⟩

/-- C10: when the first pass accumulates no cleaned text, markdown returns
before rendering and before the debug dump, appending nothing to the output
buffer, whatever the renderer and whatever references were harvested. -/
theorem c10_empty_text_no_output (ob ib : List Char) (rndr : mkd_renderer)
    (h : preText ib = []) : markdown ob ib rndr = ob := by
  simp [markdown, h]

/-- C10 witness: an unterminated reference definition leaves the cleaned
text empty while a record is harvested, and markdown appends nothing. -/
theorem c10_witness :
    preText (toL "[r]: u") = [] ∧ refsOf (toL "[r]: u") ≠ []
    ∧ markdown [] (toL "[r]: u") mkd_xhtml = [] := by
  exact ⟨by decide, by decide, c10_empty_text_no_output [] (toL "[r]: u") mkd_xhtml (by decide)⟩


/-- The paragraph scan never rewinds: its result is at least the incoming
offset. -/
theorem paragraphGo_ge (fuel : Nat) : ∀ (rest : List Char) (i : Nat), i ≤ paragraphGo fuel rest i := by
  induction fuel with
  | zero => intro rest i; simp [paragraphGo]
  | succ fuel ih =>
    intro rest i
    rw [paragraphGo]
    dsimp only
    split
    · exact Nat.le_refl i
    · split
      · omega
      · exact Nat.le_trans (Nat.le_add_right i (lineLen rest))
          (ih (rest.drop (lineLen rest)) (i + lineLen rest))

/-- The paragraph scan never passes the end of the region. -/
theorem paragraphGo_le (fuel : Nat) : ∀ (rest : List Char) (i : Nat),
    paragraphGo fuel rest i ≤ i + rest.length := by
  induction fuel with
  | zero => intro rest i; simp [paragraphGo]
  | succ fuel ih =>
    intro rest i
    rw [paragraphGo]
    dsimp only
    split
    · omega
    · have hn := lineLen_le rest
      split
      · omega
      · have h2 := ih (rest.drop (lineLen rest)) (i + lineLen rest)
        simp only [List.length_drop] at h2
        omega

/-- parse_paragraph consumes at least one byte of a nonempty region. -/
theorem paragraphEnd_pos (data : List Char) (h : data ≠ []) : 1 ≤ paragraphEnd data := by
  have hlen : 0 < data.length := List.length_pos.mpr h
  have h1 := lineLen_pos data h
  unfold paragraphEnd
  obtain ⟨fuel, hf⟩ : ∃ fuel, data.length = fuel + 1 := ⟨data.length - 1, by omega⟩
  rw [hf, paragraphGo]
  dsimp only
  split
  · omega
  · split
    · omega
    · exact Nat.le_trans (by omega) (paragraphGo_ge fuel (data.drop (lineLen data)) (0 + lineLen data))

/-- parse_paragraph consumes at most the whole region. -/
theorem paragraphEnd_le (data : List Char) : paragraphEnd data ≤ data.length := by
  have h := paragraphGo_le data.length data 0
  simpa [paragraphEnd] using h

/-- The blockquote line loop never rewinds the consumed count. -/
theorem quoteScanGo_fst_ge (fuel : Nat) : ∀ (rest acc : List Char) (consumed : Nat),
    consumed ≤ (quoteScanGo fuel rest consumed acc).1 := by
  induction fuel with
  | zero => intro rest acc consumed; simp [quoteScanGo]
  | succ fuel ih =>
    intro rest acc consumed
    rw [quoteScanGo]
    dsimp only
    split
    · exact Nat.le_refl _
    · split
      · omega
      · exact Nat.le_trans (Nat.le_add_right consumed (lineLen rest))
          (ih (rest.drop (lineLen rest)) _ (consumed + lineLen rest))

/-- The blockquote line loop never consumes past the end of the region. -/
theorem quoteScanGo_fst_le (fuel : Nat) : ∀ (rest acc : List Char) (consumed : Nat),
    (quoteScanGo fuel rest consumed acc).1 ≤ consumed + rest.length := by
  induction fuel with
  | zero => intro rest acc consumed; simp [quoteScanGo]
  | succ fuel ih =>
    intro rest acc consumed
    rw [quoteScanGo]
    dsimp only
    split
    · omega
    · have hn := lineLen_le rest
      split
      · omega
      · have h2 := ih (rest.drop (lineLen rest))
          (acc ++ (rest.take (lineLen rest)).drop (prefix_quote (rest.take (lineLen rest))))
          (consumed + lineLen rest)
        simp only [List.length_drop] at h2
        omega

/-- parse_blockquote consumes at least one byte of a nonempty region. -/
theorem quoteScan_pos (data : List Char) (h : data ≠ []) : 1 ≤ (quoteScan data).1 := by
  have hlen : 0 < data.length := List.length_pos.mpr h
  have h1 := lineLen_pos data h
  unfold quoteScan
  obtain ⟨fuel, hf⟩ : ∃ fuel, data.length = fuel + 1 := ⟨data.length - 1, by omega⟩
  rw [hf, quoteScanGo]
  dsimp only
  split
  · omega
  · split
    · omega
    · exact Nat.le_trans (by omega)
        (quoteScanGo_fst_ge fuel (data.drop (lineLen data)) _ (0 + lineLen data))

/-- parse_blockquote consumes at most the whole region. -/
theorem quoteScan_le (data : List Char) : (quoteScan data).1 ≤ data.length := by
  have h := quoteScanGo_fst_le data.length data [] 0
  simpa [quoteScan] using h

/-- With fuel at least the region length, the dispatch loop of parse_block
runs to completion: its consumed counts are all positive and sum exactly to
the region length. -/
theorem blockCountsGo_spec (fuel : Nat) : ∀ (data : List Char), data.length ≤ fuel →
    (blockCountsGo fuel data).sum = data.length ∧ ∀ n ∈ blockCountsGo fuel data, 1 ≤ n := by
  induction fuel with
  | zero =>
    intro data hf
    have : data.length = 0 := by omega
    simp [blockCountsGo, this]
  | succ fuel ih =>
    intro data hf
    rw [blockCountsGo]
    dsimp only
    split
    · rename_i h0
      simp [h0]
    · rename_i h0
      have hne : data ≠ [] := by
        intro hnil
        rw [hnil] at h0
        simp at h0
      set n := if 0 < prefix_quote data then (quoteScan data).1 else paragraphEnd data with hn
      have hpos : 1 ≤ n := by
        rw [hn]
        split
        · exact quoteScan_pos data hne
        · exact paragraphEnd_pos data hne
      have hle : n ≤ data.length := by
        rw [hn]
        split
        · exact quoteScan_le data
        · exact paragraphEnd_le data
      have hrec := ih (data.drop n) (by simp only [List.length_drop]; omega)
      constructor
      · simp only [List.sum_cons, hrec.1, List.length_drop]
        omega
      · intro m hm
        rcases List.mem_cons.mp hm with h | h
        · omega
        · exact hrec.2 m h

/-- C8: on a nonempty region parse_paragraph and parse_blockquote return a
consumed count n with 1 ≤ n ≤ size; with fuel equal to the region length
the parse_block dispatch loop already exhausts the region (termination),
its per-invocation consumed counts are all at least 1 and sum exactly to
the region size, so every byte is consumed by exactly one sub-parser
invocation. -/
theorem c8_progress_and_cover (data : List Char) (h : data ≠ []) :
    (1 ≤ paragraphEnd data ∧ paragraphEnd data ≤ data.length)
    ∧ (1 ≤ (quoteScan data).1 ∧ (quoteScan data).1 ≤ data.length)
    ∧ (blockCounts data).sum = data.length
    ∧ ∀ n ∈ blockCounts data, 1 ≤ n := by
  have hb := blockCountsGo_spec data.length data (Nat.le_refl _)
  exact ⟨⟨paragraphEnd_pos data h, paragraphEnd_le data⟩,
         ⟨quoteScan_pos data h, quoteScan_le data⟩, hb.1, hb.2⟩

/-- C8 witness at the concrete region `a\nb\n`. -/
theorem c8_witness :
    (toL "a\nb\n") ≠ []
    ∧ ((1 ≤ paragraphEnd (toL "a\nb\n") ∧ paragraphEnd (toL "a\nb\n") ≤ (toL "a\nb\n").length)
       ∧ (1 ≤ (quoteScan (toL "a\nb\n")).1 ∧ (quoteScan (toL "a\nb\n")).1 ≤ (toL "a\nb\n").length)
       ∧ (blockCounts (toL "a\nb\n")).sum = (toL "a\nb\n").length
       ∧ ∀ n ∈ blockCounts (toL "a\nb\n"), 1 ≤ n) := by
  exact ⟨by decide, c8_progress_and_cover (toL "a\nb\n") (by decide)⟩

/-- A blockquote prefix never extends past the line it was measured on. -/
theorem prefix_quote_le (l : List Char) : prefix_quote l ≤ l.length := by
  unfold prefix_quote
  dsimp only
  split_ifs <;> omega

/-- Invariant proof for the compaction write events: as long as the packed
content never outruns the read cursor, every recorded write ends inside the
region. -/
theorem quoteEventsGo_bound (data : List Char) (fuel : Nat) :
    ∀ (beg workSize : Nat) (workOff : Option Nat),
    (∀ w, workOff = some w → w + workSize ≤ beg) →
    ∀ e ∈ quoteEventsGo data fuel beg workOff workSize, e.1 + e.2 ≤ data.length := by
  induction fuel with
  | zero =>
    intro beg ws wo hinv e he
    simp [quoteEventsGo] at he
  | succ fuel ih =>
    intro beg ws wo hinv e he
    rw [quoteEventsGo] at he
    dsimp only at he
    split at he
    · rename_i hb
      have hdne : data.drop beg ≠ [] := by
        intro h0
        have hl := congrArg List.length h0
        simp only [List.length_drop, List.length_nil] at hl
        omega
      have hn1 : 1 ≤ lineLen (data.drop beg) := lineLen_pos _ hdne
      have hn2 : lineLen (data.drop beg) ≤ (data.drop beg).length := lineLen_le _
      have hdl : (data.drop beg).length = data.length - beg := List.length_drop ..
      have hpre : prefix_quote ((data.drop beg).take (lineLen (data.drop beg)))
          ≤ lineLen (data.drop beg) := by
        have hp := prefix_quote_le ((data.drop beg).take (lineLen (data.drop beg)))
        simp only [List.length_take] at hp
        omega
      split at he
      · simp at he
      · split at he
        · rename_i hlen
          split at he
          · refine ih (beg + lineLen (data.drop beg)) _ _ ?_ e he
            intro w' hw'
            injection hw' with hw'
            omega
          · rename_i wo2 w'
            have hw := hinv w' rfl
            split at he
            · rename_i hcontig
              refine ih (beg + lineLen (data.drop beg)) _ _ ?_ e he
              intro w2 hw2
              injection hw2 with hw2
              omega
            · rcases List.mem_cons.mp he with hee | hee
              · subst hee
                dsimp only
                omega
              · refine ih (beg + lineLen (data.drop beg)) _ _ ?_ e hee
                intro w2 hw2
                injection hw2 with hw2
                omega
        · refine ih (beg + lineLen (data.drop beg)) ws wo ?_ e he
          intro w hw
          have := hinv w hw
          omega
    · simp at he

/-- C9: every in-place compaction write of parse_blockquote lands inside
the region observed on entry: offsets are measured from the region start
(so no write can precede it) and destination offset plus length never
exceeds the region size. -/
theorem c9_compaction_in_bounds (data : List Char) (e : Nat × Nat)
    (he : e ∈ quoteEvents data) : e.1 + e.2 ≤ data.length := by
  exact quoteEventsGo_bound data data.length 0 0 none (by intro w hw; cases hw) e he

/-- C9 witness: the second line of `> a\n> b\n` is moved two bytes left,
and that write ends inside the region. -/
theorem c9_witness :
    (4, 2) ∈ quoteEvents (toL "> a\n> b\n")
    ∧ (4 : Nat) + 2 ≤ (toL "> a\n> b\n").length := by
  exact ⟨by decide, c9_compaction_in_bounds (toL "> a\n> b\n") (4, 2) (by decide)⟩

/-- Characterization of the newline-run loop: it emits only LFs — one per
LF in the maximal LF/CR run plus one per CR immediately followed by a byte
other than LF — and consumes exactly that run. -/
theorem nlLoop_spec (l : List Char) :
    (nlLoop l).1 = List.replicate (runLFs l + runCRsKept l) '\n'
    ∧ (nlLoop l).2 = (l.takeWhile isNlByte).length := by
  induction l with
  | nil => exact ⟨rfl, rfl⟩
  | cons c rest ih =>
    rcases ih with ⟨ih1, ih2⟩
    by_cases hn : c = '\n'
    · subst hn
      rw [nlLoop.eq_def]
      dsimp only
      rw [if_pos (Or.inl rfl)]
      cases rest with
      | nil => exact ⟨rfl, rfl⟩
      | cons r rs =>
        constructor
        · show ['\n'] ++ (nlLoop (r :: rs)).1 = _
          rw [ih1]
          have hLF : runLFs ('\n' :: r :: rs) = 1 + runLFs (r :: rs) := by
            simp [runLFs, List.takeWhile_cons, isNlByte, List.filter_cons]
            omega
          have hCR : runCRsKept ('\n' :: r :: rs) = runCRsKept (r :: rs) := by
            simp [runCRsKept, List.takeWhile_cons, isNlByte, List.zip_cons_cons,
              List.take_succ_cons, List.filter_cons]
          rw [hLF, hCR, show 1 + runLFs (r :: rs) + runCRsKept (r :: rs)
              = runLFs (r :: rs) + runCRsKept (r :: rs) + 1 by omega]
          rw [List.replicate_succ]
          rfl
        · show (nlLoop (r :: rs)).2 + 1 = _
          rw [ih2]
          show _ = (('\n' :: (r :: rs).takeWhile isNlByte)).length
          simp
    · by_cases hr : c = '\r'
      · subst hr
        rw [nlLoop.eq_def]
        dsimp only
        rw [if_pos (Or.inr rfl)]
        cases rest with
        | nil => exact ⟨rfl, rfl⟩
        | cons r rs =>
          constructor
          · by_cases hrn : r = '\n'
            · subst hrn
              show [] ++ (nlLoop ('\n' :: rs)).1 = _
              rw [List.nil_append, ih1]
              have hLF : runLFs ('\r' :: '\n' :: rs) = runLFs ('\n' :: rs) := by
                simp [runLFs, List.takeWhile_cons, isNlByte, List.filter_cons]
              have hCR : runCRsKept ('\r' :: '\n' :: rs) = runCRsKept ('\n' :: rs) := by
                simp [runCRsKept, List.takeWhile_cons, isNlByte, List.zip_cons_cons,
                  List.take_succ_cons, List.filter_cons]
              rw [hLF, hCR]
            · have hkeep : (('\r' == '\n') || (r != '\n')) = true := by
                simp [hrn]
              show (if ('\r' == '\n') || (r != '\n') then ['\n'] else []) ++ (nlLoop (r :: rs)).1 = _
              rw [hkeep, if_pos rfl, ih1]
              have hLF : runLFs ('\r' :: r :: rs) = runLFs (r :: rs) := by
                simp [runLFs, List.takeWhile_cons, isNlByte, List.filter_cons]
              have hCR : runCRsKept ('\r' :: r :: rs) = 1 + runCRsKept (r :: rs) := by
                simp [runCRsKept, List.takeWhile_cons, isNlByte, List.zip_cons_cons,
                  List.take_succ_cons, List.filter_cons, hrn]
                omega
              rw [hLF, hCR, show runLFs (r :: rs) + (1 + runCRsKept (r :: rs))
                  = runLFs (r :: rs) + runCRsKept (r :: rs) + 1 by omega]
              rw [List.replicate_succ]
              rfl
          · show (nlLoop (r :: rs)).2 + 1 = _
            rw [ih2]
            show _ = (('\r' :: (r :: rs).takeWhile isNlByte)).length
            simp
      · rw [nlLoop.eq_def]
        dsimp only
        rw [if_neg (not_or.mpr ⟨hn, hr⟩)]
        have hnl : isNlByte c = false := by
          simp [isNlByte, hn, hr]
        constructor
        · have h1 : runLFs (c :: rest) = 0 := by
            simp [runLFs, List.takeWhile_cons, hnl]
          have h2 : runCRsKept (c :: rest) = 0 := by
            simp [runCRsKept, List.takeWhile_cons, hnl]
          rw [h1, h2]
          rfl
        · show (0 : Nat) = _
          simp [List.takeWhile_cons, hnl]

/-- C3 amended: the pre-pass processes each maximal LF/CR run by emitting
one LF per LF encountered (unconditionally) and one LF per CR that is
immediately followed by a further input byte other than LF; a CR followed
by LF, and a CR at end of input, emit nothing — so a lone CR between two
non-newline bytes contributes one LF, and LF-LF pairs are not collapsed. -/
theorem c3_amended (l : List Char) :
    (nlLoop l).1 = List.replicate (runLFs l + runCRsKept l) '\n'
    ∧ (nlLoop l).2 = (l.takeWhile isNlByte).length := nlLoop_spec l

/-- Every byte emitted by the newline-run loop is an LF. -/
theorem nlLoop_mem (l : List Char) (c : Char) (hc : c ∈ (nlLoop l).1) : c = '\n' := by
  have h := (nlLoop_spec l).1
  rw [h] at hc
  exact List.eq_of_mem_replicate hc

/-- The first pass never adds a CR to the cleaned text. -/
theorem prePassGo_noCR (ib : List Char) (fuel : Nat) :
    ∀ (beg : Nat) (text : List Char) (refs : List LinkRef),
    (∀ c ∈ text, c ≠ '\r') → ∀ c ∈ (prePassGo ib fuel beg text refs).1, c ≠ '\r' := by
  induction fuel with
  | zero => intro beg text refs h c hc; exact h c hc
  | succ fuel ih =>
    intro beg text refs h c hc
    rw [prePassGo] at hc
    dsimp only at hc
    split at hc
    · split at hc
      · exact ih _ _ _ h c hc
      · refine ih _ _ _ ?_ c hc
        intro b hb
        rcases List.mem_append.mp hb with hb | hb
        · rcases List.mem_append.mp hb with hb | hb
          · exact h b hb
          · have hp := List.mem_takeWhile_imp hb
            simp only [Bool.and_eq_true, bne_iff_ne, ne_eq] at hp
            exact hp.2
        · rw [nlLoop_mem _ b hb]
          decide
    · exact h c hc

/-- C7: the cleaned text buffer contains no CR anywhere, and when it is
nonempty its last byte is LF. -/
theorem c7_cleanText_no_cr_ends_lf (ib : List Char) :
    (∀ c ∈ cleanText ib, c ≠ '\r')
    ∧ (cleanText ib = [] ∨ (cleanText ib).getLast? = some '\n') := by
  have hno : ∀ c ∈ preText ib, c ≠ '\r' :=
    prePassGo_noCR ib (ib.length + 1) 0 [] [] (by intro c hc; cases hc)
  unfold cleanText
  dsimp only
  by_cases h0 : (preText ib).length = 0
  · rw [if_pos h0]
    exact ⟨hno, Or.inl (List.length_eq_zero.mp h0)⟩
  · rw [if_neg h0]
    by_cases h1 : byteAt (preText ib) ((preText ib).length - 1) ≠ '\n'
        ∧ byteAt (preText ib) ((preText ib).length - 1) ≠ '\r'
    · rw [if_pos h1]
      constructor
      · intro c hc
        rcases List.mem_append.mp hc with hc | hc
        · exact hno c hc
        · rw [List.mem_singleton.mp hc]
          decide
      · exact Or.inr (List.getLast?_concat ..)
    · rw [if_neg h1]
      have hne : preText ib ≠ [] := by
        intro hnil
        exact h0 (by rw [hnil]; rfl)
      have hl : (preText ib).length - 1 < (preText ib).length := by
        have := List.length_pos.mpr hne
        omega
      have hin : byteAt (preText ib) ((preText ib).length - 1) ∈ preText ib := by
        rw [byteAt, List.getD_eq_getElem _ _ hl]
        exact List.getElem_mem hl
      have hcr : byteAt (preText ib) ((preText ib).length - 1) ≠ '\r' := hno _ hin
      have hlast : byteAt (preText ib) ((preText ib).length - 1) = '\n' := by
        rcases not_and_or.mp h1 with h | h
        · exact not_not.mp h
        · exact absurd (not_not.mp h) hcr
      have hgl : (preText ib).getLast? = some (byteAt (preText ib) ((preText ib).length - 1)) := by
        rw [List.getLast?_eq_getLast_of_ne_nil hne, List.getLast_eq_getElem, byteAt,
          List.getD_eq_getElem _ _ hl]
      exact ⟨hno, Or.inr (by rw [hgl, hlast])⟩

/-- The lines decomposition does not depend on the fuel once the fuel
reaches the region length. -/
theorem toLinesGo_irrel (fuel : Nat) : ∀ (fuel' : Nat) (l : List Char),
    l.length ≤ fuel → l.length ≤ fuel' → toLinesGo fuel l = toLinesGo fuel' l := by
  induction fuel with
  | zero =>
    intro fuel' l h h'
    have : l = [] := by
      cases l with
      | nil => rfl
      | cons a as => simp at h
    subst this
    cases fuel' <;> simp [toLinesGo]
  | succ fuel ih =>
    intro fuel' l h h'
    by_cases h0 : l.length = 0
    · have : l = [] := List.length_eq_zero.mp h0
      subst this
      cases fuel' <;> simp [toLinesGo]
    · have hne : l ≠ [] := by
        intro hnil
        exact h0 (by rw [hnil]; rfl)
      obtain ⟨f2, rfl⟩ : ∃ f2, fuel' = f2 + 1 := ⟨fuel' - 1, by omega⟩
      rw [toLinesGo, toLinesGo]
      rw [if_neg h0, if_neg h0]
      have hn1 := lineLen_pos l hne
      have hn2 := lineLen_le l
      have hd : (l.drop (lineLen l)).length = l.length - lineLen l := List.length_drop ..
      rw [ih f2 (l.drop (lineLen l)) (by omega) (by omega)]

/-- Unfolding of the lines decomposition on a nonempty region. -/
theorem toLines_cons (l : List Char) (h : l ≠ []) :
    toLines l = l.take (lineLen l) :: toLines (l.drop (lineLen l)) := by
  have h0 : ¬l.length = 0 := by
    intro h0
    exact h (List.length_eq_zero.mp h0)
  have hn1 := lineLen_pos l h
  have hn2 := lineLen_le l
  have hd : (l.drop (lineLen l)).length = l.length - lineLen l := List.length_drop ..
  unfold toLines
  obtain ⟨f, hf⟩ : ∃ f, l.length = f + 1 := ⟨l.length - 1, by omega⟩
  rw [hf, toLinesGo]
  rw [if_neg h0]
  rw [toLinesGo_irrel f (l.drop (lineLen l)).length (l.drop (lineLen l)) (by omega) (by omega)]

/-- The is_empty test agrees with the spec-level blank test on the first
line. -/
theorem is_empty_eq_lineBlank (l : List Char) : is_empty l = lineBlank (l.take (lineLen l)) := by
  induction l with
  | nil => rfl
  | cons c rest ih =>
    by_cases hn : c = '\n'
    · subst hn; rfl
    · rw [is_empty, lineLen, if_neg hn, if_neg hn,
        Nat.add_comm 1 (lineLen rest), List.take_succ_cons]
      have hbne : (c != '\n') = true := by simp [hn]
      by_cases hsp : isSpTabB c = true
      · rw [if_pos hsp, ih]
        unfold lineBlank
        simp only [List.takeWhile_cons, hbne, if_true, List.all_cons]
        rw [show (c == ' ' || c == '\t') = true from hsp, Bool.true_and]
      · have hf : (c == ' ' || c == '\t') = false := by
          revert hsp
          unfold isSpTabB
          cases c == ' ' || c == '\t' <;> simp
        rw [if_neg hsp]
        unfold lineBlank
        simp only [List.takeWhile_cons, hbne, if_true, List.all_cons]
        rw [hf, Bool.false_and]

/-- The paragraph scan consumes exactly the lines up to and including the
first blank line (or the whole region when there is none). -/
theorem paragraphGo_lines (fuel : Nat) : ∀ (l : List Char) (i : Nat), l.length ≤ fuel →
    paragraphGo fuel l i = i + ((upThroughBlank (toLines l)).map List.length).sum := by
  induction fuel with
  | zero =>
    intro l i h
    have : l = [] := by
      cases l with
      | nil => rfl
      | cons a as => simp at h
    subst this
    simp [paragraphGo, toLines, toLinesGo, upThroughBlank]
  | succ fuel ih =>
    intro l i h
    rw [paragraphGo]
    dsimp only
    by_cases h0 : l.length = 0
    · rw [if_pos h0]
      have : l = [] := List.length_eq_zero.mp h0
      subst this
      simp [toLines, toLinesGo, upThroughBlank]
    · rw [if_neg h0]
      have hne : l ≠ [] := by
        intro hnil
        exact h0 (by rw [hnil]; rfl)
      have hn1 := lineLen_pos l hne
      have hn2 := lineLen_le l
      have hlt : (l.take (lineLen l)).length = lineLen l := by
        simp only [List.length_take]
        omega
      rw [toLines_cons l hne]
      by_cases hemp : is_empty l = true
      · rw [if_pos hemp]
        have hblank : lineBlank (l.take (lineLen l)) = true := by
          rw [← is_empty_eq_lineBlank]
          exact hemp
        rw [upThroughBlank, if_pos hblank]
        simp only [List.map_cons, List.map_nil, List.sum_cons, List.sum_nil, hlt]
        omega
      · rw [if_neg hemp]
        have hblank : ¬lineBlank (l.take (lineLen l)) = true := by
          rw [← is_empty_eq_lineBlank]
          exact hemp
        rw [upThroughBlank, if_neg hblank]
        have hd : (l.drop (lineLen l)).length = l.length - lineLen l := List.length_drop ..
        rw [ih (l.drop (lineLen l)) (i + lineLen l) (by omega)]
        simp only [List.map_cons, List.sum_cons, hlt]
        omega

/-- Taking exactly the summed length of the kept lines from the region
yields their concatenation. -/
theorem take_upThroughBlank (fuel : Nat) : ∀ (l : List Char), l.length ≤ fuel →
    l.take (((upThroughBlank (toLinesGo fuel l)).map List.length).sum)
      = (upThroughBlank (toLinesGo fuel l)).flatten := by
  induction fuel with
  | zero =>
    intro l h
    have : l = [] := by
      cases l with
      | nil => rfl
      | cons a as => simp at h
    subst this
    simp [toLinesGo, upThroughBlank]
  | succ fuel ih =>
    intro l h
    rw [toLinesGo]
    by_cases h0 : l.length = 0
    · rw [if_pos h0]
      simp [upThroughBlank]
    · rw [if_neg h0]
      have hne : l ≠ [] := by
        intro hnil
        exact h0 (by rw [hnil]; rfl)
      have hn1 := lineLen_pos l hne
      have hn2 := lineLen_le l
      have hlt : (l.take (lineLen l)).length = lineLen l := by
        simp only [List.length_take]
        omega
      have hd : (l.drop (lineLen l)).length = l.length - lineLen l := List.length_drop ..
      by_cases hblank : lineBlank (l.take (lineLen l)) = true
      · rw [upThroughBlank, if_pos hblank]
        simp only [List.map_cons, List.map_nil, List.sum_cons, List.sum_nil, hlt,
          List.flatten_cons, List.flatten_nil, List.append_nil]
        rw [Nat.add_zero]
      · rw [upThroughBlank, if_neg hblank]
        simp only [List.map_cons, List.sum_cons, hlt, List.flatten_cons]
        rw [List.take_add]
        rw [ih (l.drop (lineLen l)) (by omega)]

/-- C4 amended: the view passed to renderer.paragraph is the region's bytes
from offset 0 up to and including the first empty line (its spaces, tabs
and newline included in the scanned prefix), with trailing LFs trimmed; the
empty line's spaces and tabs can therefore appear in the view, and only its
trailing LFs are removed. -/
theorem c4_amended (data : List Char) :
    paragraphView data = trimNl ((upThroughBlank (toLines data)).flatten) := by
  unfold paragraphView paragraphEnd
  rw [paragraphGo_lines data.length data 0 (Nat.le_refl _)]
  rw [Nat.zero_add, toLines]
  rw [take_upThroughBlank data.length data (Nat.le_refl _)]
